import Mathlib

set_option maxRecDepth 2000

/-!
Verification of the wdtools generative fitting pipeline (`wdtools/gfp.py`):
a shallow embedding of the spectrum synthesis, continuum normalization and
parameter-estimation code, over exact rationals with an explicit IEEE-style
value type `F` carrying NaN and signed infinities where the Python floats can
produce them.  External black boxes (the neural network `model.predict`,
scipy's minimizer / spline / Gaussian filter, the emcee sampler, the
radial-velocity primitive from `wdtools.spectrum`) are threaded through as
explicit function parameters, so every theorem quantifies over their behavior.
-/

/-- IEEE-754-like value lattice for the float quantities of the pipeline:
`nan`, plus/minus infinity, or a finite (rational) value. -/
inductive F where
  | nan : F
  | pinf : F
  | ninf : F
  | fin : ℚ → F
deriving DecidableEq, Repr

namespace F

/-- True exactly on `nan` (mirrors `np.isnan`). -/
def isnan : F → Bool
  | nan => true
  | _ => false

/-- True exactly on finite values (mirrors `np.isfinite`). -/
def isfinite : F → Bool
  | fin _ => true
  | _ => false

/-- The rational carried by a finite value; junk `0` otherwise. -/
def toQ : F → ℚ
  | fin q => q
  | _ => 0

/-- IEEE negation. -/
def neg : F → F
  | nan => nan
  | pinf => ninf
  | ninf => pinf
  | fin q => fin (-q)

/-- IEEE addition: nan absorbs, opposite infinities give nan. -/
def add : F → F → F
  | nan, _ => nan
  | _, nan => nan
  | pinf, ninf => nan
  | ninf, pinf => nan
  | pinf, _ => pinf
  | _, pinf => pinf
  | ninf, _ => ninf
  | _, ninf => ninf
  | fin a, fin b => fin (a + b)

/-- IEEE subtraction. -/
def sub (a b : F) : F := add a (neg b)

/-- IEEE multiplication: nan absorbs, `0 * inf = nan`. -/
def mul : F → F → F
  | nan, _ => nan
  | _, nan => nan
  | pinf, pinf => pinf
  | pinf, ninf => ninf
  | ninf, pinf => ninf
  | ninf, ninf => pinf
  | pinf, fin b => if 0 < b then pinf else if b < 0 then ninf else nan
  | fin a, pinf => if 0 < a then pinf else if a < 0 then ninf else nan
  | ninf, fin b => if 0 < b then ninf else if b < 0 then pinf else nan
  | fin a, ninf => if 0 < a then ninf else if a < 0 then pinf else nan
  | fin a, fin b => fin (a * b)

/-- IEEE division (with division of a nonzero finite value by zero giving a
signed infinity, `0/0` giving nan, and `inf/inf` giving nan). -/
def div : F → F → F
  | nan, _ => nan
  | _, nan => nan
  | pinf, pinf => nan
  | pinf, ninf => nan
  | ninf, pinf => nan
  | ninf, ninf => nan
  | pinf, fin b => if 0 ≤ b then pinf else ninf
  | ninf, fin b => if 0 ≤ b then ninf else pinf
  | fin _, pinf => fin 0
  | fin _, ninf => fin 0
  | fin a, fin b =>
      if b = 0 then (if a = 0 then nan else if 0 < a then pinf else ninf)
      else fin (a / b)

/-- IEEE strict less-than as a Boolean: any comparison with nan is false. -/
def ltb : F → F → Bool
  | nan, _ => false
  | _, nan => false
  | ninf, ninf => false
  | ninf, _ => true
  | _, ninf => false
  | pinf, _ => false
  | fin _, pinf => true
  | fin a, fin b => decide (a < b)

instance : Add F := ⟨F.add⟩
instance : Sub F := ⟨F.sub⟩
instance : Mul F := ⟨F.mul⟩
instance : Neg F := ⟨F.neg⟩
instance : Div F := ⟨F.div⟩

/-- `np.maximum` on two values: nan if either argument is nan,
otherwise the larger one. -/
def maxOp (a b : F) : F :=
  if a.isnan || b.isnan then nan else if ltb a b then b else a

end F

/-- `np.sum` of a float array: left fold of IEEE addition starting from `0`. -/
def sumF (l : List F) : F := l.foldl F.add (F.fin 0)

/-- `np.max` of a float array (nan-propagating maximum reduce);
`nan` on an empty array. -/
def maxF : List F → F
  | [] => F.nan
  | x :: xs => xs.foldl F.maxOp x

/-- Scan kept by `np.argmax`: carries the running maximum and the index of its
first occurrence, replacing only on a strictly larger element. -/
def amaxAux : List F → F → ℕ → ℕ → ℕ × F
  | [], b, bi, _ => (bi, b)
  | x :: xs, b, bi, k =>
      if F.ltb b x then amaxAux xs x k (k + 1) else amaxAux xs b bi (k + 1)

/-- `np.argmax`: index of the first occurrence of the maximum (0 on empty). -/
def argmaxF : List F → ℕ
  | [] => 0
  | x :: xs => (amaxAux xs x 0 1).1

/-- Boolean-mask indexing `arr[mask]` of numpy: keep entries whose mask bit is
set (truncating at the shorter length, as broadcasting never occurs here). -/
def maskSelect (mask : List Bool) (xs : List α) : List α :=
  (List.zip mask xs).filterMap (fun p => if p.1 then some p.2 else none)

/-- `bisect.bisect_left` on a sorted list: the number of elements `< x`. -/
def bisectLeft (xs : List ℚ) (x : ℚ) : ℕ := xs.countP (fun a => a < x)

/-- Minimum of two rationals by direct comparison. -/
def qmin (a b : ℚ) : ℚ := if a ≤ b then a else b

/-- Maximum of two rationals by direct comparison. -/
def qmax (a b : ℚ) : ℚ := if b ≤ a then a else b

/-- Minimum of a rational array (`arr.min()`); head default on empty. -/
def listMin (xs : List ℚ) : ℚ := xs.foldl qmin (xs.headD 0)

/-- Maximum of a rational array (`arr.max()`); head default on empty. -/
def listMax (xs : List ℚ) : ℚ := xs.foldl qmax (xs.headD 0)

/-- Insert into a list sorted by the IEEE order
(`ninf` before finite values before `pinf`; nan handled before use). -/
def insertF (x : F) : List F → List F
  | [] => [x]
  | y :: ys => if F.ltb y x then y :: insertF x ys else x :: y :: ys

/-- Insertion sort under the IEEE order. -/
def sortF : List F → List F
  | [] => []
  | x :: xs => insertF x (sortF xs)

/-- `np.median` of a float array: nan if any entry is nan or the array is
empty; otherwise the middle element of the sorted array, or the IEEE mean of
the two middle elements for even length. -/
def npMedian (xs : List F) : F :=
  if xs.any F.isnan then F.nan
  else match xs with
    | [] => F.nan
    | _ =>
      let s := sortF xs
      let n := xs.length
      if n % 2 = 1 then s.getD (n / 2) F.nan
      else F.div (F.add (s.getD (n / 2 - 1) F.nan) (s.getD (n / 2) F.nan)) (F.fin 2)

/-- Python slicing `xs[lo:hi]` for nonnegative slice points. -/
def npSlice (lo hi : ℕ) (xs : List α) : List α := (xs.take hi).drop lo

/-- Linear interpolation in the style of
`interp1d(xs, ys, fill_value = np.nan, bounds_error = False)`, walking the
node list: nan outside the data range, linear between neighbouring nodes. -/
def interpSeg : List (ℚ × F) → ℚ → F
  | [], _ => F.nan
  | [(x0, y0)], x => if x = x0 then y0 else F.nan
  | (x0, y0) :: (x1, y1) :: rest, x =>
      if x < x0 then F.nan
      else if x ≤ x1 then
        F.add y0 (F.mul (F.sub y1 y0) (F.fin ((x - x0) / (x1 - x0))))
      else interpSeg ((x1, y1) :: rest) x

/-- `interp1d(xs, ys, fill_value = np.nan, bounds_error = False)` applied at
one point. -/
def npInterp (xs : List ℚ) (ys : List F) (x : ℚ) : F := interpSeg (xs.zip ys) x

/-- Speed of light in km/s, the unit of the radial velocities. -/
def ckms : ℚ := 299792458 / 1000

/-- Modelled from the spec: `SpecTools.doppler_shift` of `wdtools.spectrum`
is not under src/; section 4.1(d) specifies "apply a Doppler shift of
magnitude `rv` by resampling the flux against a velocity-shifted copy of the
wavelength grid".  The flux is re-evaluated on the original grid by linear
interpolation against the grid scaled by `1 + rv/c`, nan-filled outside. -/
def doppler_shift (lamgrid : List ℚ) (flux : List ℚ) (rv : ℚ) : List F :=
  lamgrid.map
    (npInterp (lamgrid.map (fun w => w * (1 + rv / ckms))) (flux.map F.fin))

/-- External black boxes consumed by `gfp.py`, threaded explicitly: the
trained network, float transcendentals, and the scipy / emcee / correlation
primitives.  Every theorem below quantifies over this record. -/
structure ExtDeps where
  /-- `self.model[specclass].predict` on one scaled label pair. -/
  nnPredict : ℚ × ℚ → List ℚ
  /-- the float `10 ** x`. -/
  pow10 : ℚ → ℚ
  /-- `scipy.ndimage.gaussian_filter1d` at a given sigma in pixels. -/
  gaussConv : List F → ℚ → List F
  /-- `scipy.optimize.minimize(fun, x0, method = 'Nelder-Mead').x`. -/
  minimize : (List ℚ → F) → List ℚ → List ℚ
  /-- `splev(x, splrep(cwl, cvals, k = 3, s = smooth))`. -/
  splineEv : List ℚ → List F → ℚ → ℚ → F
  /-- `numpy.polynomial.chebyshev.chebfit` of a given degree. -/
  chebfitQ : List ℚ → List ℚ → ℕ → List ℚ
  /-- `SpecTools.get_rv`, the external correlation primitive. -/
  getRv : List ℚ → List F → List ℚ → List F → ℚ
  /-- the beta-sigma noise estimate `betaSigma(fl, 1, 1)[0]`. -/
  betaSigma : List ℚ → ℚ
  /-- one `emcee` ensemble run: log-probability, walker positions and step
  count to (flattened samples, final walker coordinates). -/
  mcmcRun : (List ℚ → F) → List (List ℚ) → ℕ → List (List ℚ) × List (List ℚ)
  /-- the standard normal draw used for walker `i`, coordinate `j`. -/
  randn : ℕ → ℕ → ℚ
  /-- the float `sqrt` on nonnegative rationals. -/
  sqrtQ : ℚ → ℚ

/-- The fields of the `GFP` object that the fitting code reads or writes:
the two nuisance scalars `cont_fixed` and `rv`, the masks and crop
bookkeeping of the normalizer, and the immutable model data loaded at
construction (internal grid, output scaling bounds, resolution in pixels). -/
structure GFPState where
  cont_fixed : Bool
  rv : ℚ
  lamgrid : List ℚ
  spec_min : ℚ
  spec_max : ℚ
  resolution : ℚ
  contmask : List Bool
  mask : List Bool
  smooth : ℚ
  breakpoints : List ℕ
  edges : List ℚ
deriving DecidableEq, Repr

/-- `GFP.label_sc` on one (teff, logg) row: affine scaling onto the training
label box `[5500, 40000] x [6.5, 9.5]`, with no clamping or bound check. -/
def label_sc (teff logg : ℚ) : ℚ × ℚ :=
  ((teff - 5500) / (40000 - 5500), (logg - 6.5) / (9.5 - 6.5))

/-- `GFP.inv_spec_sc`: invert the min-max output scaling of the network. -/
def inv_spec_sc (spec_min spec_max y : ℚ) : ℚ :=
  y * (spec_max - spec_min) + spec_min

/-- `GFP.synth_spectrum_sampler` (lines 182-215): scale the labels, evaluate
the network, undo the output scaling through `10 ** inv_spec_sc(..)`, and
Doppler-shift by `rv` on the internal grid.  No label-bound check of any
kind is performed on `teff` or `logg`. -/
def synth_spectrum_sampler (C : ExtDeps) (lamgrid : List ℚ)
    (spec_min spec_max : ℚ) (teff logg rv : ℚ) : List F :=
  doppler_shift lamgrid
    ((C.nnPredict (label_sc teff logg)).map
      (fun y => C.pow10 (inv_spec_sc spec_min spec_max y))) rv

/-- Clenshaw recurrence of `numpy.polynomial.chebyshev.chebval`. -/
def chebvalAux (x : ℚ) : List ℚ → ℚ × ℚ
  | [] => (0, 0)
  | [a] => (a, 0)
  | [a, b] => (a, b)
  | a :: rest => let p := chebvalAux x rest; (a - p.2, p.1 + p.2 * 2 * x)

/-- `chebval(x, c)`: Chebyshev series evaluation. -/
def chebval (x : ℚ) (c : List ℚ) : ℚ :=
  let p := chebvalAux x c
  p.1 + p.2 * x

/-- The wavelength rescaling that `gfp.py` passes to `chebval` and `chebfit`
(lines 261 and 328), exactly as the source parenthesizes it:
`2*(wl - wl.min() / (wl.max())) - 1.0`, that is `2*(w - min/max) - 1`. -/
def chebAxis (wl : List ℚ) : List ℚ :=
  wl.map (fun w => 2 * (w - listMin wl / listMax wl) - 1)

/-- The frozen-continuum division block of `GFP.spectrum_sampler`
(lines 253-258): fit a smoothing spline through the model's continuum pixels
divided by their median, evaluate on `wl`, scale back by the median, and
divide the model spectrum by this smooth continuum. -/
def contFixedDivide (C : ExtDeps) (st : GFPState) (wl : List ℚ)
    (synth : List F) : List F :=
  let cw := maskSelect st.contmask wl
  let cs := maskSelect st.contmask synth
  let med := npMedian cs
  List.zipWith
    (fun w s =>
      F.div s (F.mul (C.splineEv cw (cs.map (fun v => F.div v med)) st.smooth w) med))
    wl synth

/-- `GFP.spectrum_sampler` (lines 217-263).  The source signature is
`spectrum_sampler(self, wl, teff, logg, *polyargs)`: there is no radial
velocity argument; the rv used for the Doppler shift is `self.rv` when
`self.cont_fixed` is set and `0` otherwise (lines 239-242). -/
def spectrum_sampler (C : ExtDeps) (st : GFPState) (wl : List ℚ)
    (teff logg : ℚ) (polyargs : List ℚ) : List F :=
  let rv := if st.cont_fixed then st.rv else 0
  let synth := synth_spectrum_sampler C st.lamgrid st.spec_min st.spec_max teff logg rv
  let synth := C.gaussConv synth st.resolution
  let synth := wl.map (npInterp st.lamgrid synth)
  let synth := if st.cont_fixed then contFixedDivide C st wl synth else synth
  if 0 < polyargs.length then
    List.zipWith (fun s x => F.mul s (F.fin (chebval x polyargs))) synth (chebAxis wl)
  else synth

/-- Modelled from the spec: the `sample(wl, teff, logg, rv, *poly_coeffs)`
contract of section 4.1 takes the radial velocity as an explicit argument
(the source's `spectrum_sampler` takes none); the post-processing
(convolution, nan-filled interpolation, optional frozen-continuum division
and Chebyshev re-shaping) is identical to the source's. -/
def sample_with_rv (C : ExtDeps) (st : GFPState) (wl : List ℚ)
    (teff logg rv : ℚ) (polyargs : List ℚ) : List F :=
  let synth := synth_spectrum_sampler C st.lamgrid st.spec_min st.spec_max teff logg rv
  let synth := C.gaussConv synth st.resolution
  let synth := wl.map (npInterp st.lamgrid synth)
  let synth := if st.cont_fixed then contFixedDivide C st wl synth else synth
  if 0 < polyargs.length then
    List.zipWith (fun s x => F.mul s (F.fin (chebval x polyargs))) synth (chebAxis wl)
  else synth

/-- The masked weighted residual terms `((model - fl)**2 * ivar)[self.mask]`
of the `lnlike` closure in `GFP.fit_spectrum` (lines 464-467). -/
def lnlikeTerms (C : ExtDeps) (st : GFPState) (wl : List ℚ) (fl ivar : List F)
    (prms : List ℚ) : List F :=
  let model := spectrum_sampler C st wl (prms.getD 0 0) (prms.getD 1 0) (prms.drop 2)
  let diff :=
    List.zipWith F.mul
      (List.zipWith (fun m f => F.mul (F.sub m f) (F.sub m f)) model fl) ivar
  maskSelect st.mask diff

/-- The `lnlike` closure of `GFP.fit_spectrum` (lines 462-473). -/
def lnlike (C : ExtDeps) (st : GFPState) (wl : List ℚ) (fl ivar : List F)
    (prms : List ℚ) : F :=
  if (sumF (lnlikeTerms C st wl fl ivar prms)).isnan then F.ninf
  else F.mul (F.fin (-(1 / 2))) (sumF (lnlikeTerms C st wl fl ivar prms))

/-- The `lnprior` closure of `GFP.fit_spectrum` (lines 475-484): box bounds
`[6500, 40000] x [6.5, 9.5]` checked on the first two parameters in order,
then an optional Gaussian term in temperature.  `logNorm sigma` stands for
the float constant `log(1/(sqrt(2*pi)*sigma))`, which has no rational
value. -/
def lnprior (prior_teff : Option (ℚ × ℚ)) (logNorm : ℚ → ℚ)
    (prms : List ℚ) : F :=
  if prms.getD 0 0 < 6500 ∨ prms.getD 0 0 > 40000 then F.ninf
  else if prms.getD 1 0 < 6.5 ∨ prms.getD 1 0 > 9.5 then F.ninf
  else
    match prior_teff with
    | some (mu, sigma) =>
        F.fin (logNorm sigma - 1 / 2 * (prms.getD 0 0 - mu) ^ 2 / sigma ^ 2)
    | none => F.fin 0

/-- The `lnprob` closure of `GFP.fit_spectrum` (lines 486-490), parametrized
by the likelihood function it would call:
`lp = lnprior(prms); if not isfinite(lp): return -inf; return lp + lnlike(prms)`. -/
def lnprob (like : List ℚ → F) (prior_teff : Option (ℚ × ℚ))
    (logNorm : ℚ → ℚ) (prms : List ℚ) : F :=
  let lp := lnprior prior_teff logNorm prms
  if lp.isfinite = false then F.ninf else F.add lp (like prms)

/-- The Balmer line windows of `GFP.__init__` (`centroid_dict` and
`distance_dict`), as (centroid, half-width) pairs in the default order
alpha, beta, gamma, delta, eps, h8. -/
def defaultLines : List (ℚ × ℚ) :=
  [(6564.61, 250), (4862.68, 200), (4341.68, 85), (4102.89, 70),
   (3971.20, 45), (3890.12, 35)]

/-- Continuum mask of `GFP.normalize_DA` (lines 310-323): a pixel is a
continuum pixel iff it lies strictly inside none of the line windows. -/
def ndaContmask (lns : List (ℚ × ℚ)) (wl : List ℚ) : List Bool :=
  wl.map (fun w => !(lns.any (fun l => decide (l.1 - l.2 < w ∧ w < l.1 + l.2))))

/-- Window edges collected by `GFP.normalize_DA` (line 319). -/
def ndaEdges (lns : List (ℚ × ℚ)) : List ℚ :=
  (lns.map (fun l => [l.1 - l.2, l.1 + l.2])).flatten

/-- Breakpoint indices collected by `GFP.normalize_DA` (line 320): for each
window, `bisect_left` of the upper edge, then of the lower edge. -/
def ndaBreakpoints (lns : List (ℚ × ℚ)) (wl : List ℚ) : List ℕ :=
  (lns.map (fun l => [bisectLeft wl (l.1 + l.2), bisectLeft wl (l.1 - l.2)])).flatten

/-- The `residual` closure of `GFP.normalize_DA` (lines 333-342): out-of-box
stellar parameters are replaced by the scalar penalty `1e10`, whose square is
summed as-is (broadcast against `ivar[contmask]` when weights are present);
in-box parameters give the ivar-weighted sum of squared continuum-pixel
residuals of the sampled model. -/
def ndaResidual (C : ExtDeps) (st : GFPState) (wl fl : List ℚ)
    (ivar : Option (List ℚ)) (params : List ℚ) : F :=
  if params.getD 0 0 < 6500 ∨ params.getD 0 0 > 39000 ∨
      params.getD 1 0 < 6.5 ∨ params.getD 1 0 > 9.5 then
    match ivar with
    | none => F.fin (((10 : ℚ) ^ 10) ^ 2)
    | some iv => F.fin ((((10 : ℚ) ^ 10) ^ 2) * (maskSelect st.contmask iv).sum)
  else
    let model := spectrum_sampler C st wl (params.getD 0 0) (params.getD 1 0) (params.drop 2)
    let resid := maskSelect st.contmask (List.zipWith (fun f m => F.sub (F.fin f) m) fl model)
    match ivar with
    | none => sumF (resid.map (fun r => F.mul r r))
    | some iv =>
        sumF (List.zipWith (fun r v => F.mul (F.mul r r) (F.fin v)) resid
          (maskSelect st.contmask iv))

/-- The lower slice point of the domain restriction of `GFP.normalize_DA`
(lines 301-302): `bisect_left(wl, lamgrid.min() + 5)`. -/
def ndaIn1 (st : GFPState) (wl0 : List ℚ) : ℕ :=
  bisectLeft wl0 (listMin st.lamgrid + 5)

/-- The upper slice point of the domain restriction of `GFP.normalize_DA`
(lines 301-302): `bisect_left(wl, lamgrid.max() - 5)`. -/
def ndaIn2 (st : GFPState) (wl0 : List ℚ) : ℕ :=
  bisectLeft wl0 (listMax st.lamgrid - 5)

/-- Domain restriction of an input array by `GFP.normalize_DA`
(lines 304-306): crop to the network grid's range shrunk by 5 Angstroms. -/
def ndaDom (st : GFPState) (wl0 : List ℚ) (xs : List α) : List α :=
  npSlice (ndaIn1 st wl0) (ndaIn2 st wl0) xs

/-- The state after the mask bookkeeping and continuum fit of
`GFP.normalize_DA` (lines 297-347), paired with the minimizer's continuum
solution `soln.x`. -/
def ndaFit (C : ExtDeps) (st0 : GFPState) (wl0 fl0 : List ℚ)
    (ivar0 : Option (List ℚ)) (cont_polyorder : ℕ) (lns : List (ℚ × ℚ))
    (smooth : ℚ) : GFPState × List ℚ :=
  let st := { st0 with smooth := smooth }
  let wl := ndaDom st0 wl0 wl0
  let fl := ndaDom st0 wl0 fl0
  let ivar := ivar0.map (ndaDom st0 wl0)
  let st := { st with
    breakpoints := ndaBreakpoints lns wl,
    contmask := ndaContmask lns wl,
    edges := ndaEdges lns }
  let init_prms := [12000, 8] ++ C.chebfitQ (chebAxis wl) fl cont_polyorder
  let st := { st with mask := List.replicate wl.length true }
  let soln := C.minimize (ndaResidual C st wl fl ivar) init_prms
  let st := { st with mask := st.contmask.map (!·) }
  (st, soln)

/-- The smooth continuum curve of `GFP.normalize_DA` (lines 349-353): the
degree-3 smoothing spline through `model/median(model)` at continuum pixels,
evaluated on the cropped grid and scaled back by `median(model)`. -/
def ndaSmoothCont (C : ExtDeps) (st0 : GFPState) (wl0 fl0 : List ℚ)
    (ivar0 : Option (List ℚ)) (cont_polyorder : ℕ) (lns : List (ℚ × ℚ))
    (smooth : ℚ) : List F :=
  let fitres := ndaFit C st0 wl0 fl0 ivar0 cont_polyorder lns smooth
  let st := fitres.1
  let soln := fitres.2
  let wl := ndaDom st0 wl0 wl0
  let model := maskSelect st.contmask
    (spectrum_sampler C st wl (soln.getD 0 0) (soln.getD 1 0) (soln.drop 2))
  let med := npMedian model
  wl.map (fun w =>
    F.mul (C.splineEv (maskSelect st.contmask wl) (model.map (fun v => F.div v med)) st.smooth w) med)

/-- `GFP.normalize_DA` (lines 265-384) with `return_soln = True`, threading
the object state; returns ((wl, fl, ivar, soln), new state).  The scipy
minimizer, smoothing spline and `chebfit` come from `C`; the plotting and
diagnostic prints are omitted. -/
def normalize_DA (C : ExtDeps) (st0 : GFPState) (wl0 fl0 : List ℚ)
    (ivar0 : Option (List ℚ)) (cont_polyorder : ℕ) (lns : List (ℚ × ℚ))
    (smooth : ℚ) (crop : Bool) :
    (List ℚ × List F × Option (List F) × List ℚ) × GFPState :=
  let wl := ndaDom st0 wl0 wl0
  let fl := ndaDom st0 wl0 fl0
  let ivar := ivar0.map (ndaDom st0 wl0)
  let fitres := ndaFit C st0 wl0 fl0 ivar0 cont_polyorder lns smooth
  let st := fitres.1
  let soln := fitres.2
  let smooth_cont := ndaSmoothCont C st0 wl0 fl0 ivar0 cont_polyorder lns smooth
  let fl1 := List.zipWith (fun f c => F.div (F.fin f) c) fl smooth_cont
  let lo := st.breakpoints.getLastD 0 - 5
  let hi := st.breakpoints.headD 0 + 5
  let wl2 := if crop then npSlice lo hi wl else wl
  let fl2 := if crop then npSlice lo hi fl1 else fl1
  let st := if crop then
      let cm := npSlice lo hi st.contmask
      { st with contmask := cm, mask := cm.map (!·) }
    else st
  let ivar2 := ivar.map (fun iv =>
    let ivr := List.zipWith (fun v c => F.mul (F.fin v) (F.mul c c)) iv smooth_cont
    if crop then npSlice lo hi ivr else ivr)
  ((wl2, fl2, ivar2, soln), st)

/-- Seed vector of one multistart branch (`GFP.fit_spectrum` lines 551-554
and 563-566): `[t, 8]`, extended when `polyorder > 0` by `polyorder`
polynomial coefficients initialized to `1, 0, ..., 0`. -/
def msSeed (t : ℚ) (polyorder : ℕ) : List ℚ :=
  if 0 < polyorder then [t, 8] ++ (1 :: List.replicate (polyorder - 1) 0)
  else [t, 8]

/-- Outcome of the multistart stage: both branch solutions and chi-squares,
the selected solution and chi-square, and which branch won. -/
structure MSResult where
  cool_soln : List ℚ
  cool_chi : F
  warm_soln : List ℚ
  warm_chi : F
  soln : List ℚ
  chi : F
  coolWon : Bool
deriving DecidableEq, Repr

/-- The multistart stage of `GFP.fit_spectrum` (lines 549-581): minimize the
negative log-posterior independently from the cool seed (Teff 9000, logg 8)
and the warm seed (Teff 17000, logg 8), compute each branch's chi-square as
`-2 * lnprob(soln)`, and select the branch of strictly lower chi-square
(a tie goes to the warm branch). -/
def multistart (minimize : (List ℚ → F) → List ℚ → List ℚ)
    (lnprobF : List ℚ → F) (polyorder : ℕ) : MSResult :=
  let nll := fun p => F.neg (lnprobF p)
  let cool_soln := minimize nll (msSeed 9000 polyorder)
  let cool_chi := F.mul (F.fin (-2)) (lnprobF cool_soln)
  let warm_soln := minimize nll (msSeed 17000 polyorder)
  let warm_chi := F.mul (F.fin (-2)) (lnprobF warm_soln)
  if F.ltb cool_chi warm_chi then
    ⟨cool_soln, cool_chi, warm_soln, warm_chi, cool_soln, cool_chi, true⟩
  else
    ⟨cool_soln, cool_chi, warm_soln, warm_chi, warm_soln, warm_chi, false⟩

/-- The non-MCMC return of `GFP.fit_spectrum` (line 718):
`return soln, warm_chi / np.sum(self.mask), star_rv`.  Note that the
chi-square reported here is always the warm branch's `warm_chi`, not the
selected branch's `chi` (whose reduced form is computed at line 584 and
never returned on this path). -/
def fitReturnSimple (ms : MSResult) (maskN : ℕ) (star_rv : ℚ) :
    List ℚ × F × ℚ :=
  (ms.soln, F.div ms.warm_chi (F.fin maskN), star_rv)

/-- Walker initialization of `GFP.fit_spectrum` (lines 594-598): a ball of
1% relative Gaussian jitter around `soln`. -/
def mcmcPos0 (randn : ℕ → ℕ → ℚ) (soln : List ℚ) (nwalkers : ℕ) :
    List (List ℚ) :=
  (List.range nwalkers).map (fun i =>
    (List.range soln.length).map (fun j =>
      soln.getD j 0 + 1 / 100 * soln.getD j 0 * randn i j))

/-- Column `j` of a flattened chain. -/
def chainCol (flatchain : List (List ℚ)) (j : ℕ) : List ℚ :=
  flatchain.map (fun r => r.getD j 0)

/-- The square of `np.std(flatchain, 0)` in column `j`: the mean squared
deviation from the column mean (population variance, `ddof = 0`). -/
def colVar (flatchain : List (List ℚ)) (j : ℕ) : ℚ :=
  let c := chainCol flatchain j
  let n : ℚ := (c.length : ℚ)
  let mu := c.sum / n
  ((c.map (fun x => (x - mu) ^ 2)).sum) / n

/-- The ensemble (MCMC) refinement stage of `GFP.fit_spectrum`
(lines 586-623): run the burn-in from the jittered ball, `sampler.reset()`
(dropping every burn-in sample), run the production phase from the burn-in's
final walker coordinates; the point estimate is the flattened production
sample of maximal stored log-posterior, the reduced chi-square is
`-2 * max(lnprobs) / (len(wl) - 3)`, and the uncertainties are
`np.std(flatchain, 0)` over the flattened production chain. -/
def mcmcSection (run : List (List ℚ) → ℕ → List (List ℚ) × List (List ℚ))
    (randn : ℕ → ℕ → ℚ) (sqrtQ : ℚ → ℚ) (lnprobF : List ℚ → F)
    (soln : List ℚ) (nwalkers burn ndraws nwl : ℕ) :
    List ℚ × List ℚ × F :=
  let pos0 := mcmcPos0 randn soln nwalkers
  let bres := run pos0 burn
  let flatchain := (run bres.2 ndraws).1
  let lnprobs := flatchain.map lnprobF
  let mle := flatchain.getD (argmaxF lnprobs) []
  let redchi := F.div (F.mul (F.fin (-2)) (maxF lnprobs)) (F.fin ((nwl : ℚ) - 3))
  let stds := (List.range soln.length).map (fun j => sqrtQ (colVar flatchain j))
  (mle, stds, redchi)

/-- Result of `GFP.fit_spectrum`: the 3-tuple `(soln, redchi, star_rv)` of
the non-MCMC path, or the 4-tuple `(mle, stds, redchi, star_rv)` of the
MCMC path. -/
inductive FitResult where
  | simple (soln : List ℚ) (redchi : F) (star_rv : ℚ) : FitResult
  | full (mle : List ℚ) (stds : List ℚ) (redchi : F) (star_rv : ℚ) : FitResult
deriving DecidableEq, Repr

/-- Entry state of `GFP.fit_spectrum` (line 443): `self.cont_fixed = False`
is set before anything else runs, in particular before normalization. -/
def fitEntryState (st : GFPState) : GFPState := { st with cont_fixed := false }

/-- `GFP.fit_spectrum` (lines 387-718) on the default `DA = True` path,
threading the object state and returning (result, final state): reset
`cont_fixed`, infer a constant ivar by beta-sigma when none is given,
continuum-normalize (which freezes masks and the continuum solution), set
`cont_fixed`, resolve and freeze the radial velocity, run the multistart
stage, optionally refine by MCMC, then reset `cont_fixed` and `rv`
(lines 711-712) before returning.  Plotting and prints are omitted. -/
def fit_spectrum (C : ExtDeps) (st0 : GFPState) (wl0 fl0 : List ℚ)
    (ivar0 : Option (List ℚ)) (nwalkers burn ndraws : ℕ)
    (prior_teff : Option (ℚ × ℚ)) (logNorm : ℚ → ℚ) (polyorder : ℕ)
    (lns : List (ℚ × ℚ)) (norm_smooth : ℚ) (mcmc : Bool) :
    FitResult × GFPState :=
  let st := fitEntryState st0
  let ivarIn := match ivar0 with
    | none => List.replicate fl0.length (1 / (C.betaSigma fl0) ^ 2)
    | some iv => iv
  let nres := normalize_DA C st wl0 fl0 (some ivarIn) 3 lns norm_smooth true
  let wl := nres.1.1
  let fl := nres.1.2.1
  let ivar := (nres.1.2.2.1).getD []
  let init_soln := nres.1.2.2.2
  let st := nres.2
  let st := { st with cont_fixed := true }
  let template := spectrum_sampler C st wl (init_soln.getD 0 0) (init_soln.getD 1 0) []
  let st := { st with rv := C.getRv wl fl wl template }
  let star_rv := st.rv
  let lnprobF := lnprob (lnlike C st wl fl ivar) prior_teff logNorm
  let ms := multistart C.minimize lnprobF polyorder
  let maskN := st.mask.count true
  let result :=
    if mcmc then
      let m := mcmcSection (C.mcmcRun lnprobF) C.randn C.sqrtQ lnprobF ms.soln
        nwalkers burn ndraws wl.length
      FitResult.full m.1 m.2.1 m.2.2 star_rv
    else
      let r := fitReturnSimple ms maskN star_rv
      FitResult.simple r.1 r.2.1 r.2.2
  let st := { st with cont_fixed := false, rv := 0 }
  (result, st)

/-- A concrete instantiation of the external dependencies, used to evaluate
the pipeline on closed inputs: the network returns the fixed vector
`[1, 2, 3]`, the abstract float primitives are replaced by simple total
functions, the minimizer returns its seed and the sampler run returns its
input positions. -/
def cexDeps : ExtDeps where
  nnPredict := fun _ => [1, 2, 3]
  pow10 := fun q => q
  gaussConv := fun l _ => l
  minimize := fun _ x0 => x0
  splineEv := fun _ _ _ _ => F.fin 1
  chebfitQ := fun _ _ n => List.replicate (n + 1) 0
  getRv := fun _ _ _ _ => 0
  betaSigma := fun _ => 1
  mcmcRun := fun _ pos _ => (pos, pos)
  randn := fun _ _ => 0
  sqrtQ := fun q => q

/-- A concrete engine state on the 3-pixel internal grid 4000, 4100, 4200,
with a frozen radial velocity of c/100 and the frozen-continuum flag unset. -/
def cexState : GFPState where
  cont_fixed := false
  rv := ckms / 100
  lamgrid := [4000, 4100, 4200]
  spec_min := 0
  spec_max := 1
  resolution := 3
  contmask := [true, true, true]
  mask := [true, true, true]
  smooth := 0
  breakpoints := []
  edges := []

/-- Log-posterior giving the cool branch chi-square 1 and the warm branch
chi-square 2, used to evaluate the multistart selection at a failing input. -/
def c1lnp : List ℚ → F :=
  fun p => if p.getD 0 0 = 9000 then F.fin (-(1 / 2)) else F.fin (-1)

/-- A minimizer that returns its seed, used to evaluate the multistart
selection at a failing input. -/
def c1mz : (List ℚ → F) → List ℚ → List ℚ := fun _ x0 => x0

/-- The crop offset of `normalize_DA`: `breakpoints[-1] - 5` when cropping
(line 363), and 0 when not cropping. -/
def ndaOffset (C : ExtDeps) (st0 : GFPState) (wl0 fl0 : List ℚ)
    (ivar0 : Option (List ℚ)) (cpo : ℕ) (lns : List (ℚ × ℚ)) (smooth : ℚ)
    (crop : Bool) : ℕ :=
  if crop then
    (ndaFit C st0 wl0 fl0 ivar0 cpo lns smooth).1.breakpoints.getLastD 0 - 5
  else 0

/-- `lnprior` returns either negative infinity or a finite value. -/
theorem lnprior_ninf_or_fin (pt : Option (ℚ × ℚ)) (ln : ℚ → ℚ)
    (p : List ℚ) : lnprior pt ln p = F.ninf ∨ ∃ q, lnprior pt ln p = F.fin q := by
  unfold lnprior
  split
  · exact Or.inl rfl
  · split
    · exact Or.inl rfl
    · cases pt with
      | none => exact Or.inr ⟨0, rfl⟩
      | some ms => obtain ⟨mu, sigma⟩ := ms; exact Or.inr ⟨_, rfl⟩

/-- C4: `lnprob` short-circuits.  When `lnprior` is negative infinity (Teff
or logg outside its declared box), `lnprob` is negative infinity and is
independent of the likelihood function, so `lnlike` -- and hence the
emulator -- is never consulted; otherwise `lnprob = lnprior + lnlike`. -/
theorem C4_lnprob_short_circuit (pt : Option (ℚ × ℚ)) (ln : ℚ → ℚ)
    (p : List ℚ) :
    (lnprior pt ln p = F.ninf →
      ∀ like1 like2 : List ℚ → F,
        lnprob like1 pt ln p = F.ninf ∧
        lnprob like1 pt ln p = lnprob like2 pt ln p) ∧
    (lnprior pt ln p ≠ F.ninf →
      ∀ like : List ℚ → F,
        lnprob like pt ln p = F.add (lnprior pt ln p) (like p)) := by
  constructor
  · intro h like1 like2
    unfold lnprob
    rw [h]
    simp [F.isfinite]
  · intro h like
    rcases lnprior_ninf_or_fin pt ln p with h2 | ⟨q, h2⟩
    · exact absurd h2 h
    · unfold lnprob
      rw [h2]
      simp [F.isfinite]

/-- Witness for C4: at Teff = 0 the prior is negative infinity and `lnprob`
ignores the likelihood; at Teff = 9000, logg = 8 it is prior plus
likelihood. -/
theorem C4_lnprob_short_circuit_witness :
    (lnprob (fun _ => F.fin 5) none (fun _ => 0) [0, 8] = F.ninf ∧
      lnprob (fun _ => F.fin 5) none (fun _ => 0) [0, 8] =
        lnprob (fun _ => F.fin 7) none (fun _ => 0) [0, 8]) ∧
    lnprob (fun _ => F.fin 5) none (fun _ => 0) [9000, 8] =
      F.add (lnprior none (fun _ => 0) [9000, 8]) (F.fin 5) :=
  ⟨(C4_lnprob_short_circuit none (fun _ => 0) [0, 8]).1 (by norm_num [lnprior]) _ _,
   (C4_lnprob_short_circuit none (fun _ => 0) [9000, 8]).2
     (by norm_num [lnprior]; decide) _⟩

/-- C10: the log-prior depends only on the first two parameters (Teff and
logg); it is moreover finite -- never negative infinity -- whenever Teff and
logg lie inside their declared boxes, whatever the polynomial
coefficients. -/
theorem C10_lnprior_first_two (pt : Option (ℚ × ℚ)) (ln : ℚ → ℚ)
    (p q : List ℚ) (h0 : p.getD 0 0 = q.getD 0 0)
    (h1 : p.getD 1 0 = q.getD 1 0) :
    lnprior pt ln p = lnprior pt ln q ∧
    (6500 ≤ p.getD 0 0 → p.getD 0 0 ≤ 40000 → 6.5 ≤ p.getD 1 0 →
      p.getD 1 0 ≤ 9.5 → ∃ v, lnprior pt ln p = F.fin v) := by
  constructor
  · unfold lnprior
    rw [h0, h1]
  · intro a b c d
    have hA : ¬(p.getD 0 0 < 6500 ∨ p.getD 0 0 > 40000) := by
      rintro (h | h) <;> linarith
    have hB : ¬(p.getD 1 0 < 6.5 ∨ p.getD 1 0 > 9.5) := by
      rintro (h | h) <;> linarith
    unfold lnprior
    rw [if_neg hA, if_neg hB]
    cases pt with
    | none => exact ⟨0, rfl⟩
    | some ms => obtain ⟨mu, sigma⟩ := ms; exact ⟨_, rfl⟩

/-- Witness for C10: polynomial coefficients `[5, -3]` versus none do not
change the prior at Teff = 9000, logg = 8, and the prior is finite there. -/
theorem C10_lnprior_first_two_witness :
    lnprior none (fun _ => 0) [9000, 8, 5, -3] =
      lnprior none (fun _ => 0) [9000, 8] ∧
    ∃ v, lnprior none (fun _ => 0) [9000, 8, 5, -3] = F.fin v := by
  have h := C10_lnprior_first_two none (fun _ => 0) [9000, 8, 5, -3] [9000, 8]
    rfl rfl
  exact ⟨h.1, h.2 (by norm_num) (by norm_num) (by norm_num) (by norm_num)⟩

/-- C7 (code evaluated at the failing input): the rescaled axis the source
passes to the Chebyshev routines for `wl = [4000, 8000]` is `[7998, 15998]`:
the minimum wavelength maps to 7998, not to -1, and the axis does not lie in
`[-1, 1]`. -/
theorem C7_chebAxis_eval :
    chebAxis [4000, 8000] = [7998, 15998] ∧
    (chebAxis [4000, 8000]).headD 0 ≠ -1 ∧
    ¬((chebAxis [4000, 8000]).headD 0 ≤ 1) := by
  refine ⟨?_, ?_, ?_⟩ <;> norm_num [chebAxis, listMin, listMax, qmin, qmax]

/-- C1 (code evaluated at a failing input): in a multistart run where the
cool branch attains chi-square 1 and the warm branch 2, the cool branch is
selected and its parameter vector is the point estimate, but the value the
non-MCMC return of `fit_spectrum` (line 718) reports is
`warm_chi / sum(mask)` = 1/2 -- not the winning branch's reduced chi-square
1/4 that line 584 computes and drops. -/
theorem C1_reported_chi_eval :
    (multistart c1mz c1lnp 0).coolWon = true ∧
    (multistart c1mz c1lnp 0).soln = [9000, 8] ∧
    (multistart c1mz c1lnp 0).chi = F.fin 1 ∧
    (multistart c1mz c1lnp 0).warm_chi = F.fin 2 ∧
    fitReturnSimple (multistart c1mz c1lnp 0) 4 0 =
      ([9000, 8], F.fin (1 / 2), 0) ∧
    F.div (multistart c1mz c1lnp 0).chi (F.fin 4) = F.fin (1 / 4) ∧
    F.fin (1 / 2) ≠ F.fin (1 / 4) := by
  refine ⟨?_, ?_, ?_, ?_, ?_, ?_, ?_⟩ <;>
    norm_num [multistart, msSeed, c1mz, c1lnp, fitReturnSimple,
      F.mul, F.neg, F.ltb, F.div]

/-- C3 (amended): `spectrum_sampler` coincides with the spec's explicit-rv
`sample` interface invoked at `rv = self.rv` when the frozen-continuum flag
is set and at `rv = 0` otherwise; no independently supplied radial velocity
exists in its signature. -/
theorem C3_sampler_rv_amended (C : ExtDeps) (st : GFPState) (wl : List ℚ)
    (teff logg : ℚ) (polyargs : List ℚ) :
    spectrum_sampler C st wl teff logg polyargs =
      sample_with_rv C st wl teff logg (if st.cont_fixed then st.rv else 0)
        polyargs := rfl

/-- C3 (counterexample): with the frozen-continuum flag unset and a frozen
radial velocity of c/100, the sampled spectrum at 4150 Angstroms is the
unshifted value 5/2, whereas resampling against the rv-shifted grid gives
211/101: the sampler does not Doppler-shift by the stored rv when
`cont_fixed` is false. -/
theorem C3_sampler_rv_cex :
    spectrum_sampler cexDeps cexState [4150] 9000 8 [] = [F.fin (5 / 2)] ∧
    sample_with_rv cexDeps cexState [4150] 9000 8 cexState.rv [] =
      [F.fin (211 / 101)] ∧
    spectrum_sampler cexDeps cexState [4150] 9000 8 [] ≠
      sample_with_rv cexDeps cexState [4150] 9000 8 cexState.rv [] := by
  with_unfolding_all decide

/-- C9: the two frozen nuisance scalars are call-scoped.  `fit_spectrum`
resets `cont_fixed` at entry (before normalization), `normalize_DA` never
changes `cont_fixed` or `rv`, the state after a completed `fit_spectrum`
call has `cont_fixed = false` and `rv = 0` whatever the entry state, and the
whole call is insensitive to the incoming value of `cont_fixed`. -/
theorem C9_nuisance_call_scoped (C : ExtDeps) (st0 sIn : GFPState)
    (wl0 fl0 wl fl : List ℚ) (ivar0 iv : Option (List ℚ))
    (nwalkers burn ndraws cpo : ℕ) (pt : Option (ℚ × ℚ)) (ln : ℚ → ℚ)
    (polyorder : ℕ) (lns : List (ℚ × ℚ)) (smooth s : ℚ) (mcmc cr : Bool) :
    (fitEntryState st0).cont_fixed = false ∧
    (normalize_DA C sIn wl fl iv cpo lns s cr).2.cont_fixed = sIn.cont_fixed ∧
    (normalize_DA C sIn wl fl iv cpo lns s cr).2.rv = sIn.rv ∧
    (fit_spectrum C st0 wl0 fl0 ivar0 nwalkers burn ndraws pt ln polyorder
      lns smooth mcmc).2.cont_fixed = false ∧
    (fit_spectrum C st0 wl0 fl0 ivar0 nwalkers burn ndraws pt ln polyorder
      lns smooth mcmc).2.rv = 0 ∧
    (∀ b : Bool,
      fit_spectrum C { st0 with cont_fixed := b } wl0 fl0 ivar0 nwalkers burn
        ndraws pt ln polyorder lns smooth mcmc =
      fit_spectrum C st0 wl0 fl0 ivar0 nwalkers burn ndraws pt ln polyorder
        lns smooth mcmc) := by
  refine ⟨rfl, ?_, ?_, rfl, rfl, fun b => rfl⟩
  · cases cr <;> rfl
  · cases cr <;> rfl

/-- Adding nan on the left gives nan. -/
theorem F.add_nan_left (x : F) : (F.add F.nan x).isnan = true := by
  cases x <;> rfl

/-- Adding nan on the right gives nan. -/
theorem F.add_nan_right (x : F) : (F.add x F.nan).isnan = true := by
  cases x <;> rfl

/-- Folding IEEE addition from a nan accumulator stays nan. -/
theorem foldl_add_nan (l : List F) (b : F) (hb : b.isnan = true) :
    (l.foldl F.add b).isnan = true := by
  induction l generalizing b with
  | nil => exact hb
  | cons x xs ih =>
    rw [List.foldl_cons]
    apply ih
    have : b = F.nan := by cases b <;> simp [F.isnan] at hb <;> rfl
    rw [this]
    exact F.add_nan_left x

/-- Folding IEEE addition over a list containing a nan gives nan. -/
theorem foldl_add_nan_mem (l : List F) : ∀ b : F,
    (∃ x ∈ l, x.isnan = true) → (l.foldl F.add b).isnan = true := by
  induction l with
  | nil =>
    intro b h
    obtain ⟨x, hx, _⟩ := h
    cases hx
  | cons y ys ih =>
    intro b h
    rw [List.foldl_cons]
    obtain ⟨x, hx, hxn⟩ := h
    rcases List.mem_cons.mp hx with h1 | hmem
    · apply foldl_add_nan
      have hy : x = F.nan := by cases x <;> simp [F.isnan] at hxn <;> rfl
      rw [h1] at hy
      rw [hy]
      exact F.add_nan_right b
    · exact ih (F.add b y) ⟨x, hmem, hxn⟩

/-- `np.sum` of an array with a nan entry is nan. -/
theorem sumF_nan (l : List F) (h : ∃ x ∈ l, x.isnan = true) :
    (sumF l).isnan = true :=
  foldl_add_nan_mem l (F.fin 0) h

/-- Folding IEEE addition over finite values from a finite start computes
the rational sum. -/
theorem foldl_add_fin (l : List F) (a : ℚ)
    (h : ∀ x ∈ l, x.isfinite = true) :
    l.foldl F.add (F.fin a) = F.fin (a + (l.map F.toQ).sum) := by
  induction l generalizing a with
  | nil => simp
  | cons x xs ih =>
    have hx := h x (List.mem_cons_self x xs)
    obtain ⟨q, rfl⟩ : ∃ q, x = F.fin q := by
      cases x <;> simp [F.isfinite] at hx <;> exact ⟨_, rfl⟩
    rw [List.foldl_cons]
    show xs.foldl F.add (F.fin (a + q)) = _
    rw [ih (a + q) (fun y hy => h y (List.mem_cons_of_mem _ hy))]
    simp [F.toQ]
    ring

/-- `np.sum` of an array of finite values is the finite rational sum. -/
theorem sumF_fin (l : List F) (h : ∀ x ∈ l, x.isfinite = true) :
    sumF l = F.fin ((l.map F.toQ).sum) := by
  unfold sumF
  rw [foldl_add_fin l 0 h, zero_add]

/-- C5: the log-likelihood closure is `-0.5` times the masked ivar-weighted
sum of squared residuals between the sampled model and the observed flux;
a non-finite (nan) chi-square sum is mapped to negative infinity. -/
theorem C5_lnlike_chisq (C : ExtDeps) (st : GFPState) (wl : List ℚ)
    (fl ivar : List F) (p : List ℚ) :
    ((∀ t ∈ lnlikeTerms C st wl fl ivar p, t.isfinite = true) →
      lnlike C st wl fl ivar p =
        F.fin (-(1 / 2) * ((lnlikeTerms C st wl fl ivar p).map F.toQ).sum)) ∧
    ((∃ t ∈ lnlikeTerms C st wl fl ivar p, t.isnan = true) →
      lnlike C st wl fl ivar p = F.ninf) := by
  constructor
  · intro h
    unfold lnlike
    rw [sumF_fin _ h, if_neg (by simp [F.isnan])]
    rfl
  · intro h
    have hn := sumF_nan _ h
    unfold lnlike
    rw [hn]
    simp

/-- Witness for C5: at a one-pixel spectrum with model value 2, flux 1 and
ivar 2 the likelihood is the weighted residual formula; at a wavelength
outside the grid the nan chi-square gives negative infinity. -/
theorem C5_lnlike_chisq_witness :
    lnlike cexDeps cexState [4100] [F.fin 1] [F.fin 2] [9000, 8] =
      F.fin (-(1 / 2) *
        ((lnlikeTerms cexDeps cexState [4100] [F.fin 1] [F.fin 2]
          [9000, 8]).map F.toQ).sum) ∧
    lnlike cexDeps cexState [5000] [F.fin 1] [F.fin 2] [9000, 8] = F.ninf :=
  ⟨(C5_lnlike_chisq cexDeps cexState [4100] [F.fin 1] [F.fin 2] [9000, 8]).1
      (by with_unfolding_all decide),
   (C5_lnlike_chisq cexDeps cexState [5000] [F.fin 1] [F.fin 2] [9000, 8]).2
      (by with_unfolding_all decide)⟩

/-- A pairwise relation on abscissas lifts along `zip`. -/
theorem pairwise_zip_left {r : ℚ → ℚ → Prop} : ∀ {xs : List ℚ} {ys : List F},
    List.Pairwise r xs → List.Pairwise (fun a b : ℚ × F => r a.1 b.1) (xs.zip ys) := by
  intro xs
  induction xs with
  | nil => intro ys _; simp
  | cons x xs ih =>
    intro ys h
    cases ys with
    | nil => simp
    | cons y ys =>
      rw [List.zip_cons_cons, List.pairwise_cons]
      rw [List.pairwise_cons] at h
      refine ⟨?_, ih h.2⟩
      intro p hp
      exact h.1 p.1 (List.of_mem_zip hp).1

/-- Segment interpolation at an abscissa that is one of the nodes of a
strictly sorted node list with finite ordinates returns a finite value. -/
theorem interpSeg_node_fin : ∀ (l : List (ℚ × F)),
    List.Pairwise (fun a b : ℚ × F => a.1 < b.1) l →
    (∀ s ∈ l, s.2.isfinite = true) → ∀ x : ℚ, (∃ s ∈ l, s.1 = x) →
    (interpSeg l x).isfinite = true := by
  intro l
  induction l with
  | nil =>
    intro _ _ x hx
    obtain ⟨s, hs, _⟩ := hx
    cases hs
  | cons p0 rest ih =>
    obtain ⟨x0, y0⟩ := p0
    intro hs hf x hx
    cases rest with
    | nil =>
      obtain ⟨s, hsm, hsx⟩ := hx
      rw [List.mem_singleton] at hsm
      subst hsm
      simp only [interpSeg]
      rw [if_pos hsx.symm]
      exact hf _ (List.mem_singleton_self _)
    | cons p1 rest2 =>
      obtain ⟨x1, y1⟩ := p1
      rw [List.pairwise_cons] at hs
      have h01 : x0 < x1 := hs.1 (x1, y1) (List.mem_cons_self _ _)
      have hy0 := hf (x0, y0) (List.mem_cons_self _ _)
      have hy1 := hf (x1, y1) (List.mem_cons_of_mem _ (List.mem_cons_self _ _))
      obtain ⟨a, ha⟩ : ∃ q, y0 = F.fin q := by
        cases y0 <;> simp [F.isfinite] at hy0 <;> exact ⟨_, rfl⟩
      obtain ⟨b, hb⟩ : ∃ q, y1 = F.fin q := by
        cases y1 <;> simp [F.isfinite] at hy1 <;> exact ⟨_, rfl⟩
      obtain ⟨s, hsm, hsx⟩ := hx
      have hx0le : x0 ≤ x := by
        rcases List.mem_cons.mp hsm with h1 | hmem
        · subst h1
          exact le_of_eq hsx
        · exact le_of_lt (hsx ▸ hs.1 s hmem)
      simp only [interpSeg]
      rw [if_neg (by push_neg; exact hx0le)]
      by_cases hle : x ≤ x1
      · rw [if_pos hle, ha, hb]
        rfl
      · rw [if_neg hle]
        apply ih hs.2 (fun t htm => hf t (List.mem_cons_of_mem _ htm)) x
        push_neg at hle
        rcases List.mem_cons.mp hsm with h1 | hmem
        · exfalso
          subst h1
          simp only at hsx
          linarith
        · exact ⟨s, hmem, hsx⟩

/-- A finite value is not nan. -/
theorem F.isnan_eq_false_of_isfinite {x : F} (h : x.isfinite = true) :
    x.isnan = false := by
  cases x <;> simp_all [F.isfinite, F.isnan]

/-- C2 (amended): spectrum synthesis performs no label-bound check -- for
any Teff and logg, in or out of the emulator's label bounds, the rv = 0
synthesized spectrum is the ordinarily decoded network output and contains
no nan pixel (a nan can arise only from wavelengths outside the internal
grid); and the likelihood engine maps a nan chi-square -- such as one caused
by nan model pixels at masked positions -- to negative infinity instead of
crashing. -/
theorem C2_no_sentinel_amended (C : ExtDeps) (lamgrid : List ℚ)
    (smin smax teff logg : ℚ)
    (hsort : List.Pairwise (fun a b : ℚ => a < b) lamgrid)
    (hlen : (C.nnPredict (label_sc teff logg)).length = lamgrid.length) :
    (∀ v ∈ synth_spectrum_sampler C lamgrid smin smax teff logg 0,
      v.isnan = false) ∧
    (∀ (st : GFPState) (wl : List ℚ) (fl ivar : List F) (p : List ℚ),
      (∃ t ∈ lnlikeTerms C st wl fl ivar p, t.isnan = true) →
      lnlike C st wl fl ivar p = F.ninf) := by
  constructor
  · intro v hv
    unfold synth_spectrum_sampler doppler_shift at hv
    rw [show lamgrid.map (fun w : ℚ => w * (1 + 0 / ckms)) = lamgrid from by
      simp] at hv
    obtain ⟨w, hw, rfl⟩ := List.mem_map.mp hv
    apply F.isnan_eq_false_of_isfinite
    apply interpSeg_node_fin
    · exact pairwise_zip_left hsort
    · intro s hsm
      have h2 := (List.of_mem_zip hsm).2
      obtain ⟨q, _, hq⟩ := List.mem_map.mp h2
      rw [← hq]
      rfl
    · obtain ⟨i, hi, hiw⟩ := List.getElem_of_mem hw
      have hizip : i < (lamgrid.zip
          (((C.nnPredict (label_sc teff logg)).map
            (fun y => C.pow10 (inv_spec_sc smin smax y))).map F.fin)).length := by
        rw [List.length_zip, List.length_map, List.length_map, hlen, inf_idem]
        exact hi
      refine ⟨_, List.getElem_mem hizip, ?_⟩
      rw [List.getElem_zip]
      exact hiw
  · intro st wl fl ivar p h
    have hn := sumF_nan _ h
    unfold lnlike
    rw [hn]
    simp

/-- C2 (counterexample): at Teff = 1000, far below the emulator's lower
label bound 5500 (and the prior bound 6500), with valid logg = 8 and rv = 0,
the synthesized spectrum is the ordinary decoded network output -- finite in
every pixel -- not a nan sentinel spectrum. -/
theorem C2_sentinel_cex :
    (1000 : ℚ) < 5500 ∧
    synth_spectrum_sampler cexDeps [4000, 4100, 4200] 0 1 1000 8 0 =
      [F.fin 1, F.fin 2, F.fin 3] ∧
    (synth_spectrum_sampler cexDeps [4000, 4100, 4200] 0 1 1000 8 0).all
      (fun v => !v.isnan) = true := by
  refine ⟨by norm_num, ?_, ?_⟩ <;> with_unfolding_all decide

/-- Witness for C2 at concrete inputs: the out-of-bounds synthesized pixel
is not nan, and a nan model pixel (wavelength 5000, outside the grid) drives
the log-likelihood to negative infinity. -/
theorem C2_no_sentinel_amended_witness :
    ((synth_spectrum_sampler cexDeps [4000, 4100, 4200] 0 1 1000 8 0).getD 0
      F.nan).isnan = false ∧
    lnlike cexDeps cexState [5000] [F.fin 1] [F.fin 1] [9000, 8] = F.ninf := by
  have h := C2_no_sentinel_amended cexDeps [4000, 4100, 4200] 0 1 1000 8
    (by with_unfolding_all decide) (by with_unfolding_all decide)
  exact ⟨h.1 _ (by with_unfolding_all decide),
    h.2 cexState [5000] [F.fin 1] [F.fin 1] [9000, 8]
      (by with_unfolding_all decide)⟩

/-- Strict IEEE comparison is irreflexive. -/
theorem F.ltb_irrefl (a : F) : F.ltb a a = false := by
  cases a <;> simp [F.ltb]

/-- Strict IEEE comparison is transitive. -/
theorem F.ltb_trans {a b c : F} (h1 : F.ltb a b = true)
    (h2 : F.ltb b c = true) : F.ltb a c = true := by
  cases a <;> cases b <;> cases c <;> simp_all [F.ltb] <;> linarith

/-- Two non-nan values that are not strictly comparable are equal. -/
theorem F.ltb_total {a b : F} (ha : a.isnan = false) (hb : b.isnan = false)
    (h1 : F.ltb a b = false) (h2 : F.ltb b a = false) : a = b := by
  cases a <;> cases b <;> simp_all [F.ltb, F.isnan] <;> linarith

/-- On non-nan arguments `np.maximum` picks the larger argument. -/
theorem F.maxOp_eq {a b : F} (ha : a.isnan = false) (hb : b.isnan = false) :
    F.maxOp a b = if F.ltb a b then b else a := by
  unfold F.maxOp
  rw [ha, hb]
  simp

/-- Folding `np.maximum` over non-nan values stays non-nan. -/
theorem foldl_maxOp_notnan : ∀ (xs : List F) (b : F), b.isnan = false →
    (∀ x ∈ xs, x.isnan = false) → (xs.foldl F.maxOp b).isnan = false := by
  intro xs
  induction xs with
  | nil => intro b hb _; exact hb
  | cons x xs ih =>
    intro b hb h
    have hx : x.isnan = false := h x (List.mem_cons_self _ _)
    have hxs : ∀ y ∈ xs, y.isnan = false :=
      fun y hy => h y (List.mem_cons_of_mem _ hy)
    rw [List.foldl_cons, F.maxOp_eq hb hx]
    by_cases hc : F.ltb b x = true
    · rw [if_pos hc]; exact ih x hx hxs
    · rw [if_neg hc]; exact ih b hb hxs

/-- The fold of `np.maximum` over non-nan values is not below the start nor
below any element. -/
theorem foldl_maxOp_ge : ∀ (xs : List F) (b : F), b.isnan = false →
    (∀ x ∈ xs, x.isnan = false) →
    F.ltb (xs.foldl F.maxOp b) b = false ∧
    ∀ x ∈ xs, F.ltb (xs.foldl F.maxOp b) x = false := by
  intro xs
  induction xs with
  | nil => intro b hb _; exact ⟨F.ltb_irrefl b, by simp⟩
  | cons x xs ih =>
    intro b hb h
    have hx : x.isnan = false := h x (List.mem_cons_self _ _)
    have hxs : ∀ y ∈ xs, y.isnan = false :=
      fun y hy => h y (List.mem_cons_of_mem _ hy)
    rw [List.foldl_cons, F.maxOp_eq hb hx]
    by_cases hc : F.ltb b x = true
    · rw [if_pos hc]
      obtain ⟨h1, h2⟩ := ih x hx hxs
      constructor
      · by_cases hRb : F.ltb (xs.foldl F.maxOp x) b = true
        · have := F.ltb_trans hRb hc
          rw [this] at h1
          exact absurd h1 (by simp)
        · simpa using hRb
      · intro y hy
        rcases List.mem_cons.mp hy with rfl | hy2
        · exact h1
        · exact h2 y hy2
    · rw [if_neg hc]
      obtain ⟨h1, h2⟩ := ih b hb hxs
      refine ⟨h1, ?_⟩
      intro y hy
      rcases List.mem_cons.mp hy with rfl | hy2
      · by_cases hRx : F.ltb (xs.foldl F.maxOp b) y = true
        · by_cases hxb : F.ltb y b = true
          · have := F.ltb_trans hRx hxb
            rw [this] at h1
            exact absurd h1 (by simp)
          · have hbx : F.ltb b y = false := by simpa using hc
            have hxb2 : F.ltb y b = false := by simpa using hxb
            have hyb : y = b := F.ltb_total hx hb hxb2 hbx
            rw [hyb] at hRx
            rw [hRx] at h1
            exact absurd h1 (by simp)
        · simpa using hRx
      · exact h2 y hy2

/-- The scan of `np.argmax` computes the same value as the `np.maximum`
fold, on non-nan input. -/
theorem amaxAux_snd : ∀ (xs : List F) (b : F), b.isnan = false →
    (∀ x ∈ xs, x.isnan = false) → ∀ (bi k : ℕ),
    (amaxAux xs b bi k).2 = xs.foldl F.maxOp b := by
  intro xs
  induction xs with
  | nil => intro b _ _ bi k; rfl
  | cons x xs ih =>
    intro b hb h bi k
    have hx : x.isnan = false := h x (List.mem_cons_self _ _)
    have hxs : ∀ y ∈ xs, y.isnan = false :=
      fun y hy => h y (List.mem_cons_of_mem _ hy)
    rw [List.foldl_cons, F.maxOp_eq hb hx]
    unfold amaxAux
    by_cases hc : F.ltb b x = true
    · rw [if_pos hc, if_pos hc]
      exact ih x hx hxs k (k + 1)
    · rw [if_neg hc, if_neg hc]
      exact ih b hb hxs bi (k + 1)

/-- The scan of `np.argmax` returns either its start value and index, or the
value and (offset) position of some list element. -/
theorem amaxAux_fst : ∀ (xs : List F) (b : F) (bi k : ℕ),
    ((amaxAux xs b bi k).2 = b ∧ (amaxAux xs b bi k).1 = bi) ∨
    ∃ j, j < xs.length ∧ (amaxAux xs b bi k).2 = xs.getD j F.nan ∧
      (amaxAux xs b bi k).1 = k + j := by
  intro xs
  induction xs with
  | nil => intro b bi k; exact Or.inl ⟨rfl, rfl⟩
  | cons x xs ih =>
    intro b bi k
    unfold amaxAux
    by_cases hc : F.ltb b x = true
    · rw [if_pos hc]
      rcases ih x k (k + 1) with ⟨h1, h2⟩ | ⟨j, hj, h1, h2⟩
      · refine Or.inr ⟨0, by simp, ?_, ?_⟩
        · rw [h1, List.getD_cons_zero]
        · rw [h2]; omega
      · refine Or.inr ⟨j + 1, by simp; omega, ?_, ?_⟩
        · rw [h1, List.getD_cons_succ]
        · rw [h2]; omega
    · rw [if_neg hc]
      rcases ih b bi (k + 1) with ⟨h1, h2⟩ | ⟨j, hj, h1, h2⟩
      · exact Or.inl ⟨h1, h2⟩
      · refine Or.inr ⟨j + 1, by simp; omega, ?_, ?_⟩
        · rw [h1, List.getD_cons_succ]
        · rw [h2]; omega

/-- `np.argmax` of a nonempty list is a valid index. -/
theorem argmaxF_lt (xs : List F) (hne : xs ≠ []) :
    argmaxF xs < xs.length := by
  cases xs with
  | nil => exact absurd rfl hne
  | cons x xs =>
    simp only [argmaxF]
    rcases amaxAux_fst xs x 0 1 with ⟨_, h2⟩ | ⟨j, hj, _, h2⟩ <;> rw [h2] <;>
      simp <;> omega

/-- On a nonempty non-nan list, the element at the `np.argmax` index is the
`np.max`, and the `np.max` is not strictly below any element. -/
theorem argmaxF_spec (xs : List F) (hne : xs ≠ [])
    (hnn : ∀ x ∈ xs, x.isnan = false) :
    xs.getD (argmaxF xs) F.nan = maxF xs ∧
    ∀ x ∈ xs, F.ltb (maxF xs) x = false := by
  cases xs with
  | nil => exact absurd rfl hne
  | cons x xs =>
    have hx : x.isnan = false := hnn x (List.mem_cons_self _ _)
    have hxs : ∀ y ∈ xs, y.isnan = false :=
      fun y hy => hnn y (List.mem_cons_of_mem _ hy)
    constructor
    · simp only [argmaxF, maxF]
      have hsnd := amaxAux_snd xs x hx hxs 0 1
      rcases amaxAux_fst xs x 0 1 with ⟨h1, h2⟩ | ⟨j, hj, h1, h2⟩
      · rw [h2, List.getD_cons_zero, ← hsnd, h1]
      · rw [h2, show 1 + j = j + 1 from by omega, List.getD_cons_succ,
          ← hsnd, h1]
    · intro y hy
      simp only [maxF]
      rcases List.mem_cons.mp hy with rfl | hy2
      · exact (foldl_maxOp_ge xs y hx hxs).1
      · exact (foldl_maxOp_ge xs x hx hxs).2 y hy2

/-- `getD` after `map`, inside the bound. -/
theorem getD_map_at {α β : Type} (f : α → β) (l : List α) (i : ℕ)
    (h : i < l.length) (d1 : α) (d2 : β) :
    (l.map f).getD i d2 = f (l.getD i d1) := by
  rw [List.getD_eq_getElem _ _ (by simpa using h), List.getElem_map,
    List.getD_eq_getElem _ _ h]

/-- C6: in the MCMC refinement stage, every burn-in sample is discarded (the
stage depends on the burn-in run only through its final walker coordinates),
the returned point estimate is the flattened production sample of maximal
log-posterior (not the mean), the returned uncertainty vector applies the
float square root to the per-parameter mean squared deviation of the
flattened production chain (`np.std(flatchain, 0)`), and the reduced
chi-square is computed from that best sample as `-2 lnprob / (len(wl)-3)`. -/
theorem C6_mcmc_refinement
    (run : List (List ℚ) → ℕ → List (List ℚ) × List (List ℚ))
    (randn : ℕ → ℕ → ℚ) (sqrtQ : ℚ → ℚ) (lnprobF : List ℚ → F)
    (soln : List ℚ) (nwalkers burn ndraws nwl : ℕ)
    (hne : (run (run (mcmcPos0 randn soln nwalkers) burn).2 ndraws).1 ≠ [])
    (hnn : ∀ p, (lnprobF p).isnan = false) :
    (mcmcSection run randn sqrtQ lnprobF soln nwalkers burn ndraws nwl).1 =
      (run (run (mcmcPos0 randn soln nwalkers) burn).2 ndraws).1.getD
        (argmaxF ((run (run (mcmcPos0 randn soln nwalkers) burn).2
          ndraws).1.map lnprobF)) [] ∧
    lnprobF
        (mcmcSection run randn sqrtQ lnprobF soln nwalkers burn ndraws nwl).1 =
      maxF ((run (run (mcmcPos0 randn soln nwalkers) burn).2 ndraws).1.map
        lnprobF) ∧
    (∀ q ∈ (run (run (mcmcPos0 randn soln nwalkers) burn).2 ndraws).1.map
        lnprobF,
      F.ltb (maxF ((run (run (mcmcPos0 randn soln nwalkers) burn).2
        ndraws).1.map lnprobF)) q = false) ∧
    (mcmcSection run randn sqrtQ lnprobF soln nwalkers burn ndraws nwl).2.2 =
      F.div
        (F.mul (F.fin (-2))
          (lnprobF (mcmcSection run randn sqrtQ lnprobF soln nwalkers burn
            ndraws nwl).1))
        (F.fin ((nwl : ℚ) - 3)) ∧
    (mcmcSection run randn sqrtQ lnprobF soln nwalkers burn ndraws nwl).2.1 =
      (List.range soln.length).map
        (fun j => sqrtQ
          (colVar (run (run (mcmcPos0 randn soln nwalkers) burn).2 ndraws).1
            j)) ∧
    (∀ run2 : List (List ℚ) → ℕ → List (List ℚ) × List (List ℚ),
      (run2 (mcmcPos0 randn soln nwalkers) burn).2 =
        (run (mcmcPos0 randn soln nwalkers) burn).2 →
      run2 ((run (mcmcPos0 randn soln nwalkers) burn).2) ndraws =
        run ((run (mcmcPos0 randn soln nwalkers) burn).2) ndraws →
      mcmcSection run2 randn sqrtQ lnprobF soln nwalkers burn ndraws nwl =
        mcmcSection run randn sqrtQ lnprobF soln nwalkers burn ndraws nwl) := by
  have hnnl : ∀ q ∈ (run (run (mcmcPos0 randn soln nwalkers) burn).2
      ndraws).1.map lnprobF, q.isnan = false := by
    intro q hq
    obtain ⟨p, _, rfl⟩ := List.mem_map.mp hq
    exact hnn p
  have hnel : (run (run (mcmcPos0 randn soln nwalkers) burn).2 ndraws).1.map
      lnprobF ≠ [] := by
    intro hcon
    exact hne (List.map_eq_nil.mp hcon)
  have hspec := argmaxF_spec _ hnel hnnl
  have hlt := argmaxF_lt _ hnel
  have h2 : lnprobF
      (mcmcSection run randn sqrtQ lnprobF soln nwalkers burn ndraws nwl).1 =
      maxF ((run (run (mcmcPos0 randn soln nwalkers) burn).2 ndraws).1.map
        lnprobF) := by
    rw [show (mcmcSection run randn sqrtQ lnprobF soln nwalkers burn ndraws
      nwl).1 = (run (run (mcmcPos0 randn soln nwalkers) burn).2
        ndraws).1.getD (argmaxF ((run (run (mcmcPos0 randn soln nwalkers)
          burn).2 ndraws).1.map lnprobF)) [] from rfl]
    rw [← getD_map_at lnprobF _ _ (by simpa using hlt) [] F.nan]
    exact hspec.1
  refine ⟨rfl, h2, hspec.2, ?_, rfl, ?_⟩
  · rw [h2]
    rfl
  · intro run2 e1 e2
    show ((run2 (run2 (mcmcPos0 randn soln nwalkers) burn).2 ndraws).1.getD
        (argmaxF ((run2 (run2 (mcmcPos0 randn soln nwalkers) burn).2
          ndraws).1.map lnprobF)) [],
      (List.range soln.length).map
        (fun j => sqrtQ (colVar (run2 (run2 (mcmcPos0 randn soln nwalkers)
          burn).2 ndraws).1 j)),
      F.div (F.mul (F.fin (-2)) (maxF ((run2 (run2 (mcmcPos0 randn soln
        nwalkers) burn).2 ndraws).1.map lnprobF)))
        (F.fin ((nwl : ℚ) - 3))) = mcmcSection run randn sqrtQ lnprobF soln
          nwalkers burn ndraws nwl
    rw [e1, e2]
    rfl

/-- Witness for C6: a two-walker run whose sampler returns its input
positions, started at the multistart solution [9000, 8], yields that very
sample as the point estimate of the refinement stage. -/
theorem C6_mcmc_refinement_witness :
    (mcmcSection (fun pos _ => (pos, pos)) (fun _ _ => 0) (fun q => q)
      (fun _ => F.fin 1) [9000, 8] 2 1 1 10).1 = [9000, 8] := by
  rw [(C6_mcmc_refinement (fun pos _ => (pos, pos)) (fun _ _ => 0)
    (fun q => q) (fun _ => F.fin 1) [9000, 8] 2 1 1 10
    (by norm_num [mcmcPos0, List.range_succ]; decide) (fun p => rfl)).1]
  norm_num [mcmcPos0, List.range_succ, argmaxF, amaxAux, F.ltb]

/-- A valid index into a python slice addresses a valid index of the
underlying list. -/
theorem lt_of_slice_bound {α : Type} {lo hi : ℕ} {l : List α} {i : ℕ}
    (h : i < (npSlice lo hi l).length) : lo + i < l.length := by
  unfold npSlice at h
  rw [List.length_drop, List.length_take] at h
  omega

/-- `getD` of a python slice, inside the bound. -/
theorem getD_npSlice {α : Type} {lo hi : ℕ} {l : List α} {i : ℕ}
    (h : i < (npSlice lo hi l).length) (d : α) :
    (npSlice lo hi l).getD i d = l.getD (lo + i) d := by
  have hlen : lo + i < l.length := by
    unfold npSlice at h
    simp [List.length_drop, List.length_take] at h
    omega
  have h2 : i < ((l.take hi).drop lo).length := h
  rw [show npSlice lo hi l = (l.take hi).drop lo from rfl,
    List.getD_eq_getElem _ _ h2, List.getElem_drop, List.getElem_take,
    List.getD_eq_getElem _ _ hlen]

/-- `getD` of `zipWith`, inside the bound. -/
theorem getD_zipWith {α β γ : Type} {f : α → β → γ} {a : List α}
    {b : List β} {i : ℕ} (h : i < (List.zipWith f a b).length)
    (da : α) (db : β) (dc : γ) :
    (List.zipWith f a b).getD i dc = f (a.getD i da) (b.getD i db) := by
  have ha : i < a.length := by
    simp [List.length_zipWith] at h
    omega
  have hb : i < b.length := by
    simp [List.length_zipWith] at h
    omega
  rw [List.getD_eq_getElem _ _ h, List.getElem_zipWith,
    List.getD_eq_getElem _ _ ha, List.getD_eq_getElem _ _ hb]

/-- C8: `normalize_DA` returns the domain-restricted input flux divided
pixelwise by the fitted smooth continuum curve, and (when inverse variance
is supplied) the domain-restricted input inverse variance multiplied
pixelwise by the squared continuum curve, both addressed through the same
(possibly cropped) index offset, so the two outputs live on the same
grid. -/
theorem C8_normalize_rescaling (C : ExtDeps) (st0 : GFPState)
    (wl0 fl0 iv0 : List ℚ) (cpo : ℕ) (lns : List (ℚ × ℚ)) (smooth : ℚ)
    (crop : Bool) :
    (∀ i : ℕ,
      i < ((normalize_DA C st0 wl0 fl0 (some iv0) cpo lns smooth
          crop).1.2.1).length →
      ((normalize_DA C st0 wl0 fl0 (some iv0) cpo lns smooth
          crop).1.2.1).getD i F.nan =
        F.div
          (F.fin ((ndaDom st0 wl0 fl0).getD
            (ndaOffset C st0 wl0 fl0 (some iv0) cpo lns smooth crop + i) 0))
          ((ndaSmoothCont C st0 wl0 fl0 (some iv0) cpo lns smooth).getD
            (ndaOffset C st0 wl0 fl0 (some iv0) cpo lns smooth crop + i)
            F.nan)) ∧
    (∀ i : ℕ,
      i < (((normalize_DA C st0 wl0 fl0 (some iv0) cpo lns smooth
          crop).1.2.2.1).getD []).length →
      (((normalize_DA C st0 wl0 fl0 (some iv0) cpo lns smooth
          crop).1.2.2.1).getD []).getD i F.nan =
        F.mul
          (F.fin ((ndaDom st0 wl0 iv0).getD
            (ndaOffset C st0 wl0 fl0 (some iv0) cpo lns smooth crop + i) 0))
          (F.mul
            ((ndaSmoothCont C st0 wl0 fl0 (some iv0) cpo lns smooth).getD
              (ndaOffset C st0 wl0 fl0 (some iv0) cpo lns smooth crop + i)
              F.nan)
            ((ndaSmoothCont C st0 wl0 fl0 (some iv0) cpo lns smooth).getD
              (ndaOffset C st0 wl0 fl0 (some iv0) cpo lns smooth crop + i)
              F.nan))) := by
  cases crop with
  | false =>
    constructor
    · intro i hi
      have hz : i < (List.zipWith (fun f c => F.div (F.fin f) c)
          (ndaDom st0 wl0 fl0)
          (ndaSmoothCont C st0 wl0 fl0 (some iv0) cpo lns smooth)).length := hi
      have e1 : ((normalize_DA C st0 wl0 fl0 (some iv0) cpo lns smooth
          false).1.2.1).getD i F.nan =
          (List.zipWith (fun f c => F.div (F.fin f) c)
            (ndaDom st0 wl0 fl0)
            (ndaSmoothCont C st0 wl0 fl0 (some iv0) cpo lns
              smooth)).getD i F.nan := rfl
      have e2 : ndaOffset C st0 wl0 fl0 (some iv0) cpo lns smooth false + i =
          i := by
        simp [ndaOffset]
      rw [e1, e2, getD_zipWith hz 0 F.nan F.nan]
    · intro i hi
      have hz : i < (List.zipWith
          (fun v c => F.mul (F.fin v) (F.mul c c)) (ndaDom st0 wl0 iv0)
          (ndaSmoothCont C st0 wl0 fl0 (some iv0) cpo lns smooth)).length := hi
      have e1 : (((normalize_DA C st0 wl0 fl0 (some iv0) cpo lns smooth
          false).1.2.2.1).getD []).getD i F.nan =
          (List.zipWith (fun v c => F.mul (F.fin v) (F.mul c c))
            (ndaDom st0 wl0 iv0)
            (ndaSmoothCont C st0 wl0 fl0 (some iv0) cpo lns
              smooth)).getD i F.nan := rfl
      have e2 : ndaOffset C st0 wl0 fl0 (some iv0) cpo lns smooth false + i =
          i := by
        simp [ndaOffset]
      rw [e1, e2, getD_zipWith hz 0 F.nan F.nan]
  | true =>
    constructor
    · intro i hi
      have hs : i < (npSlice
          ((ndaFit C st0 wl0 fl0 (some iv0) cpo lns
            smooth).1.breakpoints.getLastD 0 - 5)
          ((ndaFit C st0 wl0 fl0 (some iv0) cpo lns
            smooth).1.breakpoints.headD 0 + 5)
          (List.zipWith (fun f c => F.div (F.fin f) c)
            (ndaDom st0 wl0 fl0)
            (ndaSmoothCont C st0 wl0 fl0 (some iv0) cpo lns
              smooth))).length := hi
      have e1 : ((normalize_DA C st0 wl0 fl0 (some iv0) cpo lns smooth
          true).1.2.1).getD i F.nan =
          (npSlice
            ((ndaFit C st0 wl0 fl0 (some iv0) cpo lns
              smooth).1.breakpoints.getLastD 0 - 5)
            ((ndaFit C st0 wl0 fl0 (some iv0) cpo lns
              smooth).1.breakpoints.headD 0 + 5)
            (List.zipWith (fun f c => F.div (F.fin f) c)
              (ndaDom st0 wl0 fl0)
              (ndaSmoothCont C st0 wl0 fl0 (some iv0) cpo lns
                smooth))).getD i F.nan := rfl
      have hz : (ndaFit C st0 wl0 fl0 (some iv0) cpo lns
            smooth).1.breakpoints.getLastD 0 - 5 + i <
          (List.zipWith (fun f c => F.div (F.fin f) c)
            (ndaDom st0 wl0 fl0)
            (ndaSmoothCont C st0 wl0 fl0 (some iv0) cpo lns
              smooth)).length := lt_of_slice_bound hs
      rw [e1, getD_npSlice hs F.nan, getD_zipWith hz 0 F.nan F.nan]
      rfl
    · intro i hi
      have hs : i < (npSlice
          ((ndaFit C st0 wl0 fl0 (some iv0) cpo lns
            smooth).1.breakpoints.getLastD 0 - 5)
          ((ndaFit C st0 wl0 fl0 (some iv0) cpo lns
            smooth).1.breakpoints.headD 0 + 5)
          (List.zipWith (fun v c => F.mul (F.fin v) (F.mul c c))
            (ndaDom st0 wl0 iv0)
            (ndaSmoothCont C st0 wl0 fl0 (some iv0) cpo lns
              smooth))).length := hi
      have e1 : (((normalize_DA C st0 wl0 fl0 (some iv0) cpo lns smooth
          true).1.2.2.1).getD []).getD i F.nan =
          (npSlice
            ((ndaFit C st0 wl0 fl0 (some iv0) cpo lns
              smooth).1.breakpoints.getLastD 0 - 5)
            ((ndaFit C st0 wl0 fl0 (some iv0) cpo lns
              smooth).1.breakpoints.headD 0 + 5)
            (List.zipWith (fun v c => F.mul (F.fin v) (F.mul c c))
              (ndaDom st0 wl0 iv0)
              (ndaSmoothCont C st0 wl0 fl0 (some iv0) cpo lns
                smooth))).getD i F.nan := rfl
      have hz : (ndaFit C st0 wl0 fl0 (some iv0) cpo lns
            smooth).1.breakpoints.getLastD 0 - 5 + i <
          (List.zipWith (fun v c => F.mul (F.fin v) (F.mul c c))
            (ndaDom st0 wl0 iv0)
            (ndaSmoothCont C st0 wl0 fl0 (some iv0) cpo lns
              smooth)).length := lt_of_slice_bound hs
      rw [e1, getD_npSlice hs F.nan, getD_zipWith hz 0 F.nan F.nan]
      rfl

/-- Witness for C8 on a one-pixel spectrum with flux 3 and inverse variance
2, without cropping. -/
theorem C8_normalize_rescaling_witness :
    ((normalize_DA cexDeps cexState [4100] [3] (some [2]) 0 [] 0
        false).1.2.1).getD 0 F.nan =
      F.div
        (F.fin ((ndaDom cexState [4100] [3]).getD
          (ndaOffset cexDeps cexState [4100] [3] (some [2]) 0 [] 0 false + 0)
          0))
        ((ndaSmoothCont cexDeps cexState [4100] [3] (some [2]) 0 [] 0).getD
          (ndaOffset cexDeps cexState [4100] [3] (some [2]) 0 [] 0 false + 0)
          F.nan) ∧
    (((normalize_DA cexDeps cexState [4100] [3] (some [2]) 0 [] 0
        false).1.2.2.1).getD []).getD 0 F.nan =
      F.mul
        (F.fin ((ndaDom cexState [4100] [2]).getD
          (ndaOffset cexDeps cexState [4100] [3] (some [2]) 0 [] 0 false + 0)
          0))
        (F.mul
          ((ndaSmoothCont cexDeps cexState [4100] [3] (some [2]) 0 [] 0).getD
            (ndaOffset cexDeps cexState [4100] [3] (some [2]) 0 [] 0 false
              + 0) F.nan)
          ((ndaSmoothCont cexDeps cexState [4100] [3] (some [2]) 0 [] 0).getD
            (ndaOffset cexDeps cexState [4100] [3] (some [2]) 0 [] 0 false
              + 0) F.nan)) :=
  ⟨(C8_normalize_rescaling cexDeps cexState [4100] [3] [2] 0 [] 0 false).1 0
    (by with_unfolding_all decide),
   (C8_normalize_rescaling cexDeps cexState [4100] [3] [2] 0 [] 0 false).2 0
    (by with_unfolding_all decide)⟩
